import Mathlib

/-!
# Verification of the OpenID consumer association module

A shallow embedding of `openid/association.py` (the `Association` entity:
construction, expiry, KV serialization, HMAC-SHA1 signing) together with
the collaborators the module calls but whose sources are not part of the
package under verification: the ordered key-value codec
(`oidutil.seqToKV` / `oidutil.kvToSeq`), the binary-to-text codec
(`oidutil.toBase64` / `oidutil.fromBase64`), and the keyed-hash primitive
(`cryptutil.hmacSha1`).  Those collaborators are modelled from the design
document: the KV codec from its section 4.1, base64 and HMAC-SHA1 from
their standard definitions which the document names at the interface
boundary.

Python 2 `str` values are byte strings; we model textual strings as
`List Char` (each character standing for one byte) and raw binary data as
`List Nat` with every element below 256.  Python `int` is unbounded, so
timestamps are `Int`.  Exceptions are modelled with `Except OidError`.
-/

/-- The error conditions of the module, named after the design document:
`unsupportedAssociationType` is the `ValueError` of the constructor,
`invalidCharacter` and `malformedLine` are the codec errors,
`unexpectedKeys` and `unknownVersion` the deserializer errors,
`intParseError` the propagated number-format error, `badBase64` the
propagated binary-decode error, `missingField` the `KeyError` of
`signDict`, `assertionFailure` the internal invariant check of
`serialize`, `keyError` a dictionary lookup failure, and `nameError` an
unresolved Python identifier. -/
inductive OidError where
  | unsupportedAssociationType
  | invalidCharacter
  | malformedLine
  | unexpectedKeys (keys : List (List Char))
  | unknownVersion (v : List Char)
  | intParseError
  | badBase64
  | missingField (f : List Char)
  | assertionFailure
  | keyError
  | nameError (n : List Char)
  deriving Repr, DecidableEq

/-! ## The ordered key-value codec (modelled from the spec)

Modelled from the spec: `oidutil.seqToKV` and `oidutil.kvToSeq` are not in
the sources under verification; section 4.1 of the design document defines
them.  Encode renders each pair as `key:value\n` in input order, and under
`strict` fails with `invalidCharacter` when a key holds a newline or a
colon, or a value holds a newline.  Decode splits on newlines, ignores one
trailing empty line, and demands exactly one colon per line, failing with
`malformedLine` under `strict` and skipping colonless lines otherwise. -/

/-- One encoded line: `key:value` followed by the newline terminator. -/
def kvLine (k v : List Char) : List Char :=
  k ++ ':' :: v ++ ['\n']

/-- The raw (non-strict) KV encoding: the lines concatenated in order. -/
def seqToKVRaw : List (List Char × List Char) → List Char
  | [] => []
  | (k, v) :: rest => kvLine k v ++ seqToKVRaw rest

/-- The character constraint of strict encoding: no newline in keys or
values, no colon in keys. -/
def kvStrictOK (pairs : List (List Char × List Char)) : Bool :=
  pairs.all fun p => !p.1.contains '\n' && !p.1.contains ':' && !p.2.contains '\n'

/-- Modelled from the spec: `oidutil.seqToKV`.  Strict encoding checks the
character constraint and fails with `invalidCharacter` when violated. -/
def seqToKV (pairs : List (List Char × List Char)) (strict : Bool) : Except OidError (List Char) :=
  if strict && !kvStrictOK pairs then .error .invalidCharacter
  else .ok (seqToKVRaw pairs)

/-- Split a character list at newline characters.  Always returns at least
one (possibly empty) line; a trailing newline yields a final empty line. -/
def splitNl : List Char → List (List Char)
  | [] => [[]]
  | c :: rest =>
    if c = '\n' then [] :: splitNl rest
    else
      match splitNl rest with
      | [] => [[c]]
      | l :: ls => (c :: l) :: ls

/-- Drop the final empty line produced by a trailing newline terminator. -/
def dropTrailingEmpty (lines : List (List Char)) : List (List Char) :=
  if lines.getLast? = some [] then lines.dropLast else lines

/-- Strict decoding of one line: exactly one colon, splitting the line
into the key before it and the value after it. -/
def parseLine (l : List Char) : Except OidError (List Char × List Char) :=
  if l.count ':' = 1 then
    .ok (l.takeWhile (fun c => c ≠ ':'), (l.dropWhile (fun c => c ≠ ':')).tail)
  else .error .malformedLine

/-- Non-strict decoding of one line: a colonless line is skipped (with a
logged warning, not modelled); otherwise split at the first colon. -/
def parseLineLoose (l : List Char) : Option (List Char × List Char) :=
  if l.contains ':' then
    some (l.takeWhile (fun c => c ≠ ':'), (l.dropWhile (fun c => c ≠ ':')).tail)
  else none

/-- Modelled from the spec: `oidutil.kvToSeq`.  Splits the input on
newlines, ignores one trailing empty line, and parses each line. -/
def kvToSeq (s : List Char) (strict : Bool) : Except OidError (List (List Char × List Char)) :=
  let lines := dropTrailingEmpty (splitNl s)
  if strict then lines.mapM parseLine
  else .ok (lines.filterMap parseLineLoose)

/-! ## Decimal conversion

`serialize` writes `issued` and `lifetime` with Python `str(int(x))`, and
`deserialize` reads them back with `int(s)`.  `natToStr` follows the
decimal printing of a nonnegative integer; the fuel argument (always
sufficient at `n + 1`) keeps the recursion structural. -/

/-- Decimal digits of `n`, most significant first, given enough fuel. -/
def natToStrAux (fuel : Nat) (n : Nat) : List Char :=
  match fuel with
  | 0 => []
  | fuel + 1 =>
    if n < 10 then [Nat.digitChar n]
    else natToStrAux fuel (n / 10) ++ [Nat.digitChar (n % 10)]

/-- Python `str` of a nonnegative integer. -/
def natToStr (n : Nat) : List Char := natToStrAux (n + 1) n

/-- Python `str` of an integer: a minus sign before the digits when
negative. -/
def intToStr (i : Int) : List Char :=
  if i < 0 then '-' :: natToStr i.natAbs else natToStr i.toNat

/-- Left-to-right accumulation of decimal digits; fails at the first
non-digit character. -/
def parseNatAux (acc : Nat) : List Char → Option Nat
  | [] => some acc
  | c :: rest =>
    if 48 ≤ c.toNat ∧ c.toNat ≤ 57 then parseNatAux (acc * 10 + (c.toNat - 48)) rest
    else none

/-- Parse a nonempty all-digit string as a nonnegative integer. -/
def strToNat (s : List Char) : Option Nat :=
  match s with
  | [] => none
  | _ :: _ => parseNatAux 0 s

/-- Python `int(s)` restricted to the outputs of `str`: an optional minus
sign followed by digits. -/
def strToInt (s : List Char) : Except OidError Int :=
  match s with
  | '-' :: rest =>
    match strToNat rest with
    | some n => .ok (-(n : Int))
    | none => .error .intParseError
  | _ =>
    match strToNat s with
    | some n => .ok (n : Int)
    | none => .error .intParseError

/-! ## Base64 (modelled from the spec)

Modelled from the spec: `oidutil.toBase64` and `oidutil.fromBase64` are
not in the sources under verification; the design document specifies a
base64-style binary-to-text codec `encodeBinary` / `decodeBinary` used for
the `secret` field.  We model standard base64 with `=` padding. -/

/-- The 64 characters of the base64 alphabet. -/
def b64Alphabet : List Char :=
  "ABCDEFGHIJKLMNOPQRSTUVWXYZabcdefghijklmnopqrstuvwxyz0123456789+/".toList

/-- The alphabet character of a 6-bit group. -/
def b64Char (k : Nat) : Char := b64Alphabet.getD k '*'

/-- The 6-bit group of an alphabet character, when it is one. -/
def b64Index (c : Char) : Option Nat := b64Alphabet.indexOf? c

/-- Modelled from the spec: `oidutil.toBase64`, the standard base64
encoding of a byte list, three bytes to four characters with `=`
padding. -/
def toBase64 : List Nat → List Char
  | [] => []
  | [x] => [b64Char (x / 4), b64Char (x % 4 * 16), '=', '=']
  | [x, y] => [b64Char (x / 4), b64Char (x % 4 * 16 + y / 16), b64Char (y % 16 * 4), '=']
  | x :: y :: z :: rest =>
    b64Char (x / 4) :: b64Char (x % 4 * 16 + y / 16) ::
    b64Char (y % 16 * 4 + z / 64) :: b64Char (z % 64) :: toBase64 rest

/-- Modelled from the spec: `oidutil.fromBase64`, the inverse base64
decoding; malformed input fails with `badBase64`. -/
def fromBase64 : List Char → Except OidError (List Nat)
  | [] => .ok []
  | c1 :: c2 :: c3 :: c4 :: rest =>
    match b64Index c1, b64Index c2 with
    | some a, some b =>
      if c3 = '=' then
        if c4 = '=' ∧ rest = [] then .ok [a * 4 + b / 16]
        else .error .badBase64
      else
        match b64Index c3 with
        | some c =>
          if c4 = '=' then
            if rest = [] then .ok [a * 4 + b / 16, b % 16 * 16 + c / 4]
            else .error .badBase64
          else
            match b64Index c4 with
            | some d => do
              let tl ← fromBase64 rest
              .ok ((a * 4 + b / 16) :: (b % 16 * 16 + c / 4) :: (c % 4 * 64 + d) :: tl)
            | none => .error .badBase64
        | none => .error .badBase64
    | _, _ => .error .badBase64
  | _ => .error .badBase64

/-! ## SHA-1 and HMAC-SHA1 (modelled from the spec)

Modelled from the spec: `cryptutil.hmacSha1` is not in the sources under
verification; the design document names the collaborator interface
`hmac(key: bytes, message: bytes) -> bytes`, SHA-1-based.  We model the
standard HMAC construction over the standard SHA-1 compression function,
with 32-bit words as `Nat` reduced modulo `2 ^ 32`. -/

/-- Truncation to a 32-bit word. -/
def w32 (n : Nat) : Nat := n % 4294967296

/-- Left rotation of a 32-bit word by `s` bits. -/
def rotl (s n : Nat) : Nat := w32 (n * 2 ^ s + n / 2 ^ (32 - s))

/-- Big-endian packing of bytes into 32-bit words, four at a time. -/
def bytesToWords : List Nat → List Nat
  | a :: b :: c :: d :: rest => (a * 16777216 + b * 65536 + c * 256 + d) :: bytesToWords rest
  | _ => []

/-- Big-endian unpacking of one 32-bit word into four bytes. -/
def wordToBytes (n : Nat) : List Nat :=
  [n / 16777216 % 256, n / 65536 % 256, n / 256 % 256, n % 256]

/-- The message-schedule extension: prepend `count` further words to the
reversed schedule, each the 1-bit rotation of the XOR of the words 3, 8,
14 and 16 positions back. -/
def sha1Extend : Nat → List Nat → List Nat
  | 0, revWs => revWs
  | count + 1, revWs =>
    let w := rotl 1 (Nat.xor (Nat.xor (revWs.getD 2 0) (revWs.getD 7 0))
                            (Nat.xor (revWs.getD 13 0) (revWs.getD 15 0)))
    sha1Extend count (w :: revWs)

/-- The 80-word message schedule of one block, from its 16 packed words. -/
def sha1Schedule (ws : List Nat) : List Nat :=
  (sha1Extend 64 ws.reverse).reverse

/-- The working state of the SHA-1 compression function. -/
structure Sha1State where
  a : Nat
  b : Nat
  c : Nat
  d : Nat
  e : Nat
  deriving Repr, DecidableEq

/-- One SHA-1 round: the round function and constant depend on the round
index group. -/
def sha1Round (i : Nat) (st : Sha1State) (w : Nat) : Sha1State :=
  let fk : Nat × Nat :=
    if i < 20 then
      (Nat.lor (Nat.land st.b st.c) (Nat.land (Nat.xor st.b 4294967295) st.d), 1518500249)
    else if i < 40 then (Nat.xor (Nat.xor st.b st.c) st.d, 1859775393)
    else if i < 60 then
      (Nat.lor (Nat.lor (Nat.land st.b st.c) (Nat.land st.b st.d)) (Nat.land st.c st.d),
       2400959708)
    else (Nat.xor (Nat.xor st.b st.c) st.d, 3395469782)
  let temp := w32 (rotl 5 st.a + fk.1 + st.e + fk.2 + w)
  { a := temp, b := st.a, c := rotl 30 st.b, d := st.c, e := st.d }

/-- The 80 rounds of one block, folding over the schedule. -/
def sha1Rounds (i : Nat) (st : Sha1State) : List Nat → Sha1State
  | [] => st
  | w :: ws => sha1Rounds (i + 1) (sha1Round i st w) ws

/-- The SHA-1 compression function: run the 80 rounds of one 64-byte
block and add the result into the chaining state. -/
def sha1Compress (st : Sha1State) (block : List Nat) : Sha1State :=
  let r := sha1Rounds 0 st (sha1Schedule (bytesToWords block))
  { a := w32 (st.a + r.a), b := w32 (st.b + r.b), c := w32 (st.c + r.c),
    d := w32 (st.d + r.d), e := w32 (st.e + r.e) }

/-- Consume the padded message byte by byte, compressing each completed
64-byte block. -/
def sha1Process (st : Sha1State) (acc : List Nat) : List Nat → Sha1State
  | [] => st
  | b :: rest =>
    let acc2 := acc ++ [b]
    if acc2.length = 64 then sha1Process (sha1Compress st acc2) [] rest
    else sha1Process st acc2 rest

/-- The big-endian 8-byte encoding of the message bit length. -/
def sha1LenBytes (n : Nat) : List Nat :=
  [n / 72057594037927936 % 256, n / 281474976710656 % 256, n / 1099511627776 % 256,
   n / 4294967296 % 256, n / 16777216 % 256, n / 65536 % 256, n / 256 % 256, n % 256]

/-- SHA-1 padding: one `0x80` byte, zeros to 56 modulo 64, then the
64-bit bit length. -/
def sha1Pad (msg : List Nat) : List Nat :=
  msg ++ 128 :: List.replicate ((64 - (msg.length + 9) % 64) % 64) 0 ++
    sha1LenBytes (msg.length * 8)

/-- The SHA-1 digest of a byte list, as 20 bytes. -/
def sha1 (msg : List Nat) : List Nat :=
  let st := sha1Process ⟨1732584193, 4023233417, 2562383102, 271733878, 3285377520⟩ []
              (sha1Pad msg)
  wordToBytes st.a ++ wordToBytes st.b ++ wordToBytes st.c ++ wordToBytes st.d ++
    wordToBytes st.e

/-- Modelled from the spec: `cryptutil.hmacSha1`, the standard HMAC
construction over SHA-1 with a 64-byte block size. -/
def hmacSha1 (key msg : List Nat) : List Nat :=
  let k0 := if 64 < key.length then sha1 key else key
  let kp := k0 ++ List.replicate (64 - k0.length) 0
  sha1 (kp.map (fun b => Nat.xor b 92) ++ sha1 (kp.map (fun b => Nat.xor b 54) ++ msg))

/-- The bytes of a Python 2 `str`, one byte per modelled character. -/
def strBytes (s : List Char) : List Nat := s.map Char.toNat

/-! ## Decimal conversion lemmas -/

theorem digitChar_toNat {d : Nat} (h : d < 10) : (Nat.digitChar d).toNat = 48 + d := by
  interval_cases d <;> rfl

theorem natToStrAux_ne_nil (fuel n : Nat) (h : 0 < fuel) : natToStrAux fuel n ≠ [] := by
  match fuel with
  | fuel + 1 =>
    unfold natToStrAux
    split
    · simp
    · simp

theorem natToStrAux_digits (fuel : Nat) :
    ∀ n, n < fuel → ∀ c ∈ natToStrAux fuel n, 48 ≤ c.toNat ∧ c.toNat ≤ 57 := by
  induction fuel with
  | zero => intro n h; omega
  | succ fuel ih =>
    intro n h c hc
    unfold natToStrAux at hc
    by_cases h10 : n < 10
    · simp [h10] at hc
      subst hc
      have := digitChar_toNat h10
      omega
    · simp [h10] at hc
      rcases hc with hc | hc
      · exact ih (n / 10) (by omega) c hc
      · subst hc
        have : n % 10 < 10 := Nat.mod_lt _ (by omega)
        have := digitChar_toNat this
        omega

theorem parseNatAux_append (s t : List Char) :
    ∀ acc, parseNatAux acc (s ++ t) =
      (parseNatAux acc s).bind (fun m => parseNatAux m t) := by
  induction s with
  | nil => intro acc; simp [parseNatAux]
  | cons c s ih =>
    intro acc
    simp only [List.cons_append, parseNatAux]
    split
    · exact ih _
    · simp

theorem parseNatAux_natToStrAux (fuel : Nat) :
    ∀ n acc, n < fuel →
      parseNatAux acc (natToStrAux fuel n) =
        some (acc * 10 ^ (natToStrAux fuel n).length + n) := by
  induction fuel with
  | zero => intro n acc h; omega
  | succ fuel ih =>
    intro n acc h
    unfold natToStrAux
    by_cases h10 : n < 10
    · have hd := digitChar_toNat h10
      simp [h10, parseNatAux, hd, pow_one]
      omega
    · simp only [h10, if_false]
      rw [parseNatAux_append]
      have hrec : n / 10 < fuel := by omega
      rw [ih (n / 10) acc hrec]
      have hm : n % 10 < 10 := Nat.mod_lt _ (by omega)
      have hd := digitChar_toNat hm
      simp [parseNatAux, hd]
      constructor
      · omega
      · rw [pow_succ]
        have : n = 10 * (n / 10) + n % 10 := (Nat.div_add_mod n 10).symm
        ring_nf
        omega

theorem strToNat_natToStr (n : Nat) : strToNat (natToStr n) = some n := by
  unfold strToNat natToStr
  have hne := natToStrAux_ne_nil (n + 1) n (by omega)
  have hp := parseNatAux_natToStrAux (n + 1) n 0 (by omega)
  match hs : natToStrAux (n + 1) n with
  | [] => exact absurd hs hne
  | c :: rest =>
    rw [hs] at hp
    simpa using hp

theorem natToStr_digits (n : Nat) : ∀ c ∈ natToStr n, 48 ≤ c.toNat ∧ c.toNat ≤ 57 :=
  natToStrAux_digits (n + 1) n (by omega)

theorem digit_ne {c : Char} (h48 : 48 ≤ c.toNat) (h57 : c.toNat ≤ 57) :
    c ≠ '\n' ∧ c ≠ ':' ∧ c ≠ '-' := by
  refine ⟨?_, ?_, ?_⟩ <;> intro he <;> subst he <;> revert h48 h57 <;> decide

theorem strToInt_neg_cons (rest : List Char) :
    strToInt ('-' :: rest) =
      match strToNat rest with
      | some n => .ok (-(n : Int))
      | none => .error .intParseError := rfl

theorem strToInt_cons_of_ne (c : Char) (rest : List Char) (h : c ≠ '-') :
    strToInt (c :: rest) =
      match strToNat (c :: rest) with
      | some n => .ok (n : Int)
      | none => .error .intParseError := by
  unfold strToInt
  split
  · rename_i heq
    injection heq with h1 h2
    exact absurd h1 h
  · rfl

theorem strToInt_intToStr (i : Int) : strToInt (intToStr i) = .ok i := by
  unfold intToStr
  by_cases hneg : i < 0
  · simp only [hneg, if_true]
    rw [strToInt_neg_cons, strToNat_natToStr]
    simp only []
    congr 1
    omega
  · simp only [hneg, if_false]
    have hne := natToStrAux_ne_nil (i.toNat + 1) i.toNat (by omega)
    match hs : natToStr i.toNat with
    | [] => exact absurd hs hne
    | c :: rest =>
      have hdig : 48 ≤ c.toNat ∧ c.toNat ≤ 57 := by
        have := natToStr_digits i.toNat c
        rw [hs] at this
        exact this (by simp)
      have hcm : c ≠ '-' := (digit_ne hdig.1 hdig.2).2.2
      have hsn : strToNat (c :: rest) = some i.toNat := by
        rw [← hs]; exact strToNat_natToStr i.toNat
      rw [strToInt_cons_of_ne c rest hcm, hsn]
      simp only []
      congr 1
      omega

theorem intToStr_chars (i : Int) : ∀ c ∈ intToStr i, c ≠ '\n' ∧ c ≠ ':' := by
  intro c hc
  unfold intToStr at hc
  by_cases hneg : i < 0
  · simp only [hneg, if_true] at hc
    rcases List.mem_cons.mp hc with hc | hc
    · subst hc
      constructor <;> decide
    · have := natToStr_digits i.natAbs c hc
      exact ⟨(digit_ne this.1 this.2).1, (digit_ne this.1 this.2).2.1⟩
  · simp only [hneg, if_false] at hc
    have := natToStr_digits i.toNat c hc
    exact ⟨(digit_ne this.1 this.2).1, (digit_ne this.1 this.2).2.1⟩

/-! ## Base64 lemmas -/

deriving instance DecidableEq for Except

theorem except_bind_ok {ε α β : Type} (a : α) (f : α → Except ε β) :
    (Except.ok a >>= f : Except ε β) = f a := rfl

theorem b64Index_b64Char_fin : ∀ k : Fin 64, b64Index (b64Char k.val) = some k.val := by
  decide

theorem b64Index_b64Char {k : Nat} (h : k < 64) : b64Index (b64Char k) = some k :=
  b64Index_b64Char_fin ⟨k, h⟩

theorem b64Char_ne_fin :
    ∀ k : Fin 64, b64Char k.val ≠ '=' ∧ b64Char k.val ≠ ':' ∧ b64Char k.val ≠ '\n' := by
  decide

theorem b64Char_ne {k : Nat} (h : k < 64) :
    b64Char k ≠ '=' ∧ b64Char k ≠ ':' ∧ b64Char k ≠ '\n' :=
  b64Char_ne_fin ⟨k, h⟩

theorem fromBase64_toBase64 (s : List Nat) (h : ∀ b ∈ s, b < 256) :
    fromBase64 (toBase64 s) = .ok s := by
  induction s using toBase64.induct with
  | case1 => rfl
  | case2 x =>
    have hx : x < 256 := h x (by simp)
    simp only [toBase64, fromBase64,
      b64Index_b64Char (show x / 4 < 64 by omega),
      b64Index_b64Char (show x % 4 * 16 < 64 by omega)]
    norm_num
    omega
  | case3 x y =>
    have hx : x < 256 := h x (by simp)
    have hy : y < 256 := h y (by simp)
    simp only [toBase64, fromBase64,
      b64Index_b64Char (show x / 4 < 64 by omega),
      b64Index_b64Char (show x % 4 * 16 + y / 16 < 64 by omega),
      b64Index_b64Char (show y % 16 * 4 < 64 by omega),
      (b64Char_ne (show y % 16 * 4 < 64 by omega)).1]
    norm_num
    omega
  | case4 x y z rest ih =>
    have hx : x < 256 := h x (by simp)
    have hy : y < 256 := h y (by simp)
    have hz : z < 256 := h z (by simp)
    have hrest : ∀ b ∈ rest, b < 256 := fun b hb => h b (by simp [hb])
    simp only [toBase64, fromBase64,
      b64Index_b64Char (show x / 4 < 64 by omega),
      b64Index_b64Char (show x % 4 * 16 + y / 16 < 64 by omega),
      b64Index_b64Char (show y % 16 * 4 + z / 64 < 64 by omega),
      b64Index_b64Char (show z % 64 < 64 by omega),
      (b64Char_ne (show y % 16 * 4 + z / 64 < 64 by omega)).1,
      (b64Char_ne (show z % 64 < 64 by omega)).1]
    simp only [ih hrest]
    norm_num
    simp only [except_bind_ok, Except.ok.injEq, List.cons.injEq, and_true]
    omega

theorem toBase64_chars (s : List Nat) (h : ∀ b ∈ s, b < 256) :
    ∀ c ∈ toBase64 s, c ≠ ':' ∧ c ≠ '\n' := by
  induction s using toBase64.induct with
  | case1 => intro c hc; simp [toBase64] at hc
  | case2 x =>
    have hx : x < 256 := h x (by simp)
    intro c hc
    simp only [toBase64, List.mem_cons, List.not_mem_nil, or_false] at hc
    rcases hc with hc | hc | hc | hc
    · exact ⟨hc ▸ (b64Char_ne (show x / 4 < 64 by omega)).2.1,
            hc ▸ (b64Char_ne (show x / 4 < 64 by omega)).2.2⟩
    · exact ⟨hc ▸ (b64Char_ne (show x % 4 * 16 < 64 by omega)).2.1,
            hc ▸ (b64Char_ne (show x % 4 * 16 < 64 by omega)).2.2⟩
    · subst hc; constructor <;> decide
    · subst hc; constructor <;> decide
  | case3 x y =>
    have hx : x < 256 := h x (by simp)
    have hy : y < 256 := h y (by simp)
    intro c hc
    simp only [toBase64, List.mem_cons, List.not_mem_nil, or_false] at hc
    rcases hc with hc | hc | hc | hc
    · exact ⟨hc ▸ (b64Char_ne (show x / 4 < 64 by omega)).2.1,
            hc ▸ (b64Char_ne (show x / 4 < 64 by omega)).2.2⟩
    · exact ⟨hc ▸ (b64Char_ne (show x % 4 * 16 + y / 16 < 64 by omega)).2.1,
            hc ▸ (b64Char_ne (show x % 4 * 16 + y / 16 < 64 by omega)).2.2⟩
    · exact ⟨hc ▸ (b64Char_ne (show y % 16 * 4 < 64 by omega)).2.1,
            hc ▸ (b64Char_ne (show y % 16 * 4 < 64 by omega)).2.2⟩
    · subst hc; constructor <;> decide
  | case4 x y z rest ih =>
    have hx : x < 256 := h x (by simp)
    have hy : y < 256 := h y (by simp)
    have hz : z < 256 := h z (by simp)
    have hrest : ∀ b ∈ rest, b < 256 := fun b hb => h b (by simp [hb])
    intro c hc
    simp only [toBase64, List.mem_cons] at hc
    rcases hc with hc | hc | hc | hc | hc'
    · exact ⟨hc ▸ (b64Char_ne (show x / 4 < 64 by omega)).2.1,
            hc ▸ (b64Char_ne (show x / 4 < 64 by omega)).2.2⟩
    · exact ⟨hc ▸ (b64Char_ne (show x % 4 * 16 + y / 16 < 64 by omega)).2.1,
            hc ▸ (b64Char_ne (show x % 4 * 16 + y / 16 < 64 by omega)).2.2⟩
    · exact ⟨hc ▸ (b64Char_ne (show y % 16 * 4 + z / 64 < 64 by omega)).2.1,
            hc ▸ (b64Char_ne (show y % 16 * 4 + z / 64 < 64 by omega)).2.2⟩
    · exact ⟨hc ▸ (b64Char_ne (show z % 64 < 64 by omega)).2.1,
            hc ▸ (b64Char_ne (show z % 64 < 64 by omega)).2.2⟩
    · exact ih hrest c hc'

/-! ## KV codec lemmas -/

theorem splitNl_append (l s : List Char) (h : '\n' ∉ l) :
    splitNl (l ++ '\n' :: s) = l :: splitNl s := by
  induction l with
  | nil => simp [splitNl]
  | cons c rest ih =>
    have hc : ¬(c = '\n') := fun he => h (he ▸ List.mem_cons_self c rest)
    have hrest : '\n' ∉ rest := fun hm => h (List.mem_cons_of_mem c hm)
    simp only [List.cons_append, splitNl, hc, if_false]
    rw [List.append_eq, ih hrest]

theorem splitNl_seqToKVRaw (pairs : List (List Char × List Char))
    (h : ∀ p ∈ pairs, '\n' ∉ p.1 ∧ '\n' ∉ p.2) :
    splitNl (seqToKVRaw pairs) = pairs.map (fun p => p.1 ++ ':' :: p.2) ++ [[]] := by
  induction pairs with
  | nil => rfl
  | cons p rest ih =>
    obtain ⟨hk, hv⟩ := h p (List.mem_cons_self p rest)
    have hrest := fun q hq => h q (List.mem_cons_of_mem p hq)
    have hline : '\n' ∉ p.1 ++ ':' :: p.2 := by
      intro hm
      rcases List.mem_append.mp hm with hm | hm
      · exact hk hm
      · rcases List.mem_cons.mp hm with hm | hm
        · exact absurd hm (by decide)
        · exact hv hm
    have hshape : seqToKVRaw (p :: rest) = (p.1 ++ ':' :: p.2) ++ '\n' :: seqToKVRaw rest := by
      show kvLine p.1 p.2 ++ seqToKVRaw rest = _
      simp [kvLine, List.append_assoc]
    rw [hshape, splitNl_append _ _ hline, ih hrest]
    simp

theorem takeWhile_no_colon (k v : List Char) (hk : ':' ∉ k) :
    (k ++ ':' :: v).takeWhile (fun c => c ≠ ':') = k := by
  induction k with
  | nil => simp [List.takeWhile]
  | cons c rest ih =>
    have hc : ¬(c = ':') := fun he => hk (he ▸ List.mem_cons_self c rest)
    have hrest : ':' ∉ rest := fun hm => hk (List.mem_cons_of_mem c hm)
    simp only [List.cons_append]
    rw [List.takeWhile_cons, if_pos (by simp [hc]), ih hrest]

theorem dropWhile_no_colon (k v : List Char) (hk : ':' ∉ k) :
    (k ++ ':' :: v).dropWhile (fun c => c ≠ ':') = ':' :: v := by
  induction k with
  | nil => simp [List.dropWhile]
  | cons c rest ih =>
    have hc : ¬(c = ':') := fun he => hk (he ▸ List.mem_cons_self c rest)
    have hrest : ':' ∉ rest := fun hm => hk (List.mem_cons_of_mem c hm)
    simp only [List.cons_append]
    rw [List.dropWhile_cons, if_pos (by simp [hc]), ih hrest]

theorem count_line (k v : List Char) (hk : ':' ∉ k) (hv : ':' ∉ v) :
    (k ++ ':' :: v).count ':' = 1 := by
  rw [List.count_append, List.count_cons]
  rw [List.count_eq_zero.mpr hk, List.count_eq_zero.mpr hv]
  simp

theorem parseLine_kv (k v : List Char) (hk : ':' ∉ k) (hv : ':' ∉ v) :
    parseLine (k ++ ':' :: v) = .ok (k, v) := by
  unfold parseLine
  rw [if_pos (count_line k v hk hv), takeWhile_no_colon k v hk, dropWhile_no_colon k v hk]
  rfl

theorem mapM_parseLine (pairs : List (List Char × List Char))
    (h : ∀ p ∈ pairs, ':' ∉ p.1 ∧ ':' ∉ p.2) :
    (pairs.map (fun p => p.1 ++ ':' :: p.2)).mapM parseLine = .ok pairs := by
  induction pairs with
  | nil => rfl
  | cons p rest ih =>
    obtain ⟨hk, hv⟩ := h p (List.mem_cons_self p rest)
    have hrest := fun q hq => h q (List.mem_cons_of_mem p hq)
    rw [List.map_cons, List.mapM_cons, parseLine_kv p.1 p.2 hk hv, ih hrest]
    rfl

/-- The character constraint under which the strict KV codec round-trips:
no newline anywhere, and (as every line holds exactly one colon) no colon
in keys or values. -/
def kvRoundOK (pairs : List (List Char × List Char)) : Prop :=
  ∀ p ∈ pairs, '\n' ∉ p.1 ∧ ':' ∉ p.1 ∧ '\n' ∉ p.2 ∧ ':' ∉ p.2

theorem kvStrictOK_of (pairs : List (List Char × List Char)) (h : kvRoundOK pairs) :
    kvStrictOK pairs = true := by
  unfold kvStrictOK
  rw [List.all_eq_true]
  intro p hp
  obtain ⟨h1, h2, h3, _⟩ := h p hp
  simp [h1, h2, h3]

theorem seqToKV_strict_ok (pairs : List (List Char × List Char)) (h : kvRoundOK pairs) :
    seqToKV pairs true = .ok (seqToKVRaw pairs) := by
  unfold seqToKV
  rw [kvStrictOK_of pairs h]
  rfl

/-- Round-trip of the KV codec in strict mode, under the character
constraint. -/
theorem kvToSeq_seqToKVRaw (pairs : List (List Char × List Char)) (h : kvRoundOK pairs) :
    kvToSeq (seqToKVRaw pairs) true = .ok pairs := by
  unfold kvToSeq
  rw [splitNl_seqToKVRaw pairs (fun p hp => ⟨(h p hp).1, (h p hp).2.2.1⟩)]
  unfold dropTrailingEmpty
  rw [List.getLast?_concat]
  simp only [if_pos rfl, List.dropLast_concat, if_true]
  exact mapM_parseLine pairs (fun p hp => ⟨(h p hp).2.1, (h p hp).2.2.2⟩)

/-! ## The Association entity (`openid/association.py`) -/

/-- The consumer's view of an association: the five stored fields. -/
structure Association where
  handle : List Char
  secret : List Nat
  issued : Int
  lifetime : Int
  assoc_type : List Char
  deriving Repr, DecidableEq

namespace Association

/-- The ordering and name of keys as stored by `serialize`. -/
def assoc_keys : List (List Char) :=
  ["version".toList, "handle".toList, "secret".toList,
   "issued".toList, "lifetime".toList, "assoc_type".toList]

/-- The standard constructor `Association.__init__`: rejects every
association type other than `HMAC-SHA1`, then stores the five fields
verbatim. -/
def init (handle : List Char) (secret : List Nat) (issued lifetime : Int)
    (assoc_type : List Char) : Except OidError Association :=
  if assoc_type ≠ "HMAC-SHA1".toList then .error .unsupportedAssociationType
  else .ok { handle := handle, secret := secret, issued := issued,
             lifetime := lifetime, assoc_type := assoc_type }

/-- The alternate constructor `Association.fromExpiresIn`: stamps `issued`
with the current time `now` and delegates to the standard constructor with
`lifetime = expires_in`. -/
def fromExpiresIn (now : Int) (expires_in : Int) (handle : List Char)
    (secret : List Nat) (assoc_type : List Char) : Except OidError Association :=
  init handle secret now expires_in assoc_type

/-- `Association.getExpiresIn`: seconds of validity left at wall-clock
time `now`, floored at zero. -/
def getExpiresIn (a : Association) (now : Int) : Int :=
  max 0 (a.issued + a.lifetime - now)

/-- The field dictionary built by `serialize`, as the ordered association
list of its six `key: value` entries. -/
def assocData (a : Association) : List (List Char × List Char) :=
  [("version".toList, ['2']),
   ("handle".toList, a.handle),
   ("secret".toList, toBase64 a.secret),
   ("issued".toList, intToStr a.issued),
   ("lifetime".toList, intToStr a.lifetime),
   ("assoc_type".toList, a.assoc_type)]

/-- `Association.serialize`: assert that the field dictionary has as many
entries as `assoc_keys`, build the `(key, value)` pairs by looking each
key up in the dictionary in `assoc_keys` order, and encode them
strictly. -/
def serialize (a : Association) : Except OidError (List Char) :=
  let data := a.assocData
  if data.length = assoc_keys.length then
    match assoc_keys.mapM (fun k => (data.lookup k).map (fun v => (k, v))) with
    | some pairs => seqToKV pairs true
    | none => .error .keyError
  else .error .assertionFailure

/-- `Association.deserialize`: strict KV decode, the exact-key-sequence
check, the version check, integer parsing of `issued` and `lifetime`,
base64 decoding of `secret`, then the standard constructor. -/
def deserialize (s : List Char) : Except OidError Association := do
  let pairs ← kvToSeq s true
  let keys := pairs.map Prod.fst
  let values := pairs.map Prod.snd
  if keys ≠ assoc_keys then .error (.unexpectedKeys keys)
  else
    match values with
    | [version, handle, secret, issued, lifetime, assoc_type] =>
      if version ≠ ['2'] then .error (.unknownVersion version)
      else do
        let issuedI ← strToInt issued
        let lifetimeI ← strToInt lifetime
        let secretB ← fromBase64 secret
        init handle secretB issuedI lifetimeI assoc_type
    | _ => .error .keyError

/-- `Association.sign`: the HMAC-SHA1 of the (non-strict) KV encoding of
the ordered pairs, keyed by the secret. -/
def sign (assoc : Association) (pairs : List (List Char × List Char)) : List Nat :=
  hmacSha1 assoc.secret (strBytes (seqToKVRaw pairs))

/-- `Association.signDict`: look each requested field up in the map under
its prefixed name, building the ordered pairs; a missing field raises
`KeyError` (the `missingField` error).  The final line of the source,
`return oidUtil.toBase64(self.sign(pairs))`, references the undefined
name `oidUtil` (the module is imported as `oidutil`), so reaching it
raises `NameError` before `sign` is ever invoked. -/
def signDict (a : Association) (fields : List (List Char))
    (data : List (List Char × List Char)) (pfx : List Char) :
    Except OidError (List Char) := do
  let _pairs ← fields.mapM (fun f =>
    match data.lookup (pfx ++ f) with
    | some v => Except.ok (f, v)
    | none => Except.error (OidError.missingField f))
  .error (.nameError "oidUtil".toList)

end Association

/-! ## Serialization lemmas -/

theorem serialize_eq (a : Association) :
    Association.serialize a = seqToKV a.assocData true := rfl

/-- The format's character constraints on an association's fields: the
association type is the one supported value, the secret is raw bytes, and
the opaque handle holds neither a newline nor a colon (the other four
serialized values are drawn from the base64 and decimal alphabets, which
satisfy the constraints automatically). -/
abbrev validAssoc (a : Association) : Prop :=
  a.assoc_type = "HMAC-SHA1".toList ∧ (∀ b ∈ a.secret, b < 256) ∧
    '\n' ∉ a.handle ∧ ':' ∉ a.handle

theorem assocData_roundOK (a : Association) (h : validAssoc a) : kvRoundOK a.assocData := by
  obtain ⟨ht, hsec, hh1, hh2⟩ := h
  intro p hp
  simp only [Association.assocData, List.mem_cons, List.not_mem_nil, or_false] at hp
  rcases hp with hp | hp | hp | hp | hp | hp
  · subst hp
    exact ⟨show '\n' ∉ "version".toList by decide, show ':' ∉ "version".toList by decide,
           show '\n' ∉ ['2'] by decide, show ':' ∉ ['2'] by decide⟩
  · subst hp
    exact ⟨show '\n' ∉ "handle".toList by decide, show ':' ∉ "handle".toList by decide,
           hh1, hh2⟩
  · subst hp
    refine ⟨show '\n' ∉ "secret".toList by decide, show ':' ∉ "secret".toList by decide, ?_, ?_⟩
    · intro hm; exact (toBase64_chars a.secret hsec _ hm).2 rfl
    · intro hm; exact (toBase64_chars a.secret hsec _ hm).1 rfl
  · subst hp
    refine ⟨show '\n' ∉ "issued".toList by decide, show ':' ∉ "issued".toList by decide, ?_, ?_⟩
    · intro hm; exact (intToStr_chars a.issued _ hm).1 rfl
    · intro hm; exact (intToStr_chars a.issued _ hm).2 rfl
  · subst hp
    refine ⟨show '\n' ∉ "lifetime".toList by decide, show ':' ∉ "lifetime".toList by decide,
            ?_, ?_⟩
    · intro hm; exact (intToStr_chars a.lifetime _ hm).1 rfl
    · intro hm; exact (intToStr_chars a.lifetime _ hm).2 rfl
  · subst hp
    rw [ht]
    exact ⟨show '\n' ∉ "assoc_type".toList by decide, show ':' ∉ "assoc_type".toList by decide,
           show '\n' ∉ "HMAC-SHA1".toList by decide, show ':' ∉ "HMAC-SHA1".toList by decide⟩

theorem deserialize_assocData (a : Association) (h : validAssoc a) :
    Association.deserialize (seqToKVRaw a.assocData) = .ok a := by
  have hok := assocData_roundOK a h
  obtain ⟨handle, secret, issued, lifetime, assoc_type⟩ := a
  obtain ⟨ht, hsec, hh1, hh2⟩ := h
  subst ht
  unfold Association.deserialize
  rw [kvToSeq_seqToKVRaw _ hok, except_bind_ok]
  simp only [Association.assocData, List.map_cons, List.map_nil]
  rw [if_neg (by simp [Association.assoc_keys])]
  rw [if_neg (by simp)]
  rw [strToInt_intToStr, except_bind_ok, strToInt_intToStr, except_bind_ok,
      fromBase64_toBase64 secret hsec, except_bind_ok]
  unfold Association.init
  rw [if_neg (by simp)]

theorem except_bind_error {ε α β : Type} (e : ε) (f : α → Except ε β) :
    (Except.error e >>= f : Except ε β) = .error e := rfl

theorem signDict_eq (a : Association) (fields : List (List Char))
    (data : List (List Char × List Char)) (pfx : List Char) :
    Association.signDict a fields data pfx =
      (fields.mapM fun f =>
        match data.lookup (pfx ++ f) with
        | some v => Except.ok (f, v)
        | none => Except.error (OidError.missingField f)) >>=
        fun _ => .error (.nameError "oidUtil".toList) := rfl

theorem mapM_lookup_missing (data : List (List Char × List Char)) (pfx : List Char) :
    ∀ fields : List (List Char), (∃ f ∈ fields, data.lookup (pfx ++ f) = none) →
      ∃ g ∈ fields, data.lookup (pfx ++ g) = none ∧
        (fields.mapM fun f =>
          match data.lookup (pfx ++ f) with
          | some v => Except.ok (f, v)
          | none => Except.error (OidError.missingField f)) =
          (.error (.missingField g) : Except OidError (List (List Char × List Char))) := by
  intro fields
  induction fields with
  | nil =>
    intro h
    obtain ⟨f, hf, _⟩ := h
    exact absurd hf (List.not_mem_nil f)
  | cons f rest ih =>
    intro h
    rw [List.mapM_cons]
    cases hl : data.lookup (pfx ++ f) with
    | none =>
      refine ⟨f, List.mem_cons_self f rest, hl, ?_⟩
      simp only [hl, except_bind_error]
    | some v =>
      have hrest : ∃ g ∈ rest, data.lookup (pfx ++ g) = none := by
        obtain ⟨g, hg, hgl⟩ := h
        rcases List.mem_cons.mp hg with hg | hg
        · subst hg; rw [hl] at hgl; exact absurd hgl (by simp)
        · exact ⟨g, hg, hgl⟩
      obtain ⟨g, hg, hgl, heq⟩ := ih hrest
      refine ⟨g, List.mem_cons_of_mem f hg, hgl, ?_⟩
      simp only [hl, except_bind_ok, heq, except_bind_error]

/-! ## Claim theorems -/

/-- C1: for every Association whose five fields satisfy the format's
character constraints, `serialize` succeeds and `deserialize` of the
result returns an Association structurally equal to the original, all
five fields equal. -/
theorem claim_serialize_deserialize_roundtrip (a : Association) (h : validAssoc a) :
    ∃ s, Association.serialize a = .ok s ∧ Association.deserialize s = .ok a := by
  refine ⟨seqToKVRaw a.assocData, ?_, deserialize_assocData a h⟩
  rw [serialize_eq]
  exact seqToKV_strict_ok _ (assocData_roundOK a h)

/-- C1 witness: the round trip evaluated at a concrete association. -/
theorem claim_serialize_deserialize_roundtrip_witness :
    validAssoc ⟨"h1".toList, [0, 255, 7], 1000000000, 3600, "HMAC-SHA1".toList⟩ ∧
    ∃ s, Association.serialize ⟨"h1".toList, [0, 255, 7], 1000000000, 3600,
          "HMAC-SHA1".toList⟩ = .ok s ∧
      Association.deserialize s =
        .ok ⟨"h1".toList, [0, 255, 7], 1000000000, 3600, "HMAC-SHA1".toList⟩ :=
  ⟨by decide, claim_serialize_deserialize_roundtrip _ (by decide)⟩

/-- C2: for every handle, secret, issued and lifetime, the primary
constructor succeeds exactly when the association type is `HMAC-SHA1`,
storing the five fields verbatim, and fails with
`unsupportedAssociationType` for every other value. -/
theorem claim_init_validates_assoc_type (handle : List Char) (secret : List Nat)
    (issued lifetime : Int) (assoc_type : List Char) :
    Association.init handle secret issued lifetime assoc_type =
      if assoc_type = "HMAC-SHA1".toList then
        .ok ⟨handle, secret, issued, lifetime, assoc_type⟩
      else .error .unsupportedAssociationType := by
  unfold Association.init
  by_cases hat : assoc_type = "HMAC-SHA1".toList <;> simp [hat]

/-- C3: the expiry query returns exactly `max 0 (issued + lifetime - now)`,
is never negative, and is non-increasing between two observations at
increasing timestamps. -/
theorem claim_expiresIn_formula (a : Association) (now now2 : Int) (h : now ≤ now2) :
    a.getExpiresIn now = max 0 (a.issued + a.lifetime - now) ∧
    0 ≤ a.getExpiresIn now ∧
    a.getExpiresIn now2 ≤ a.getExpiresIn now := by
  unfold Association.getExpiresIn
  refine ⟨rfl, le_max_left _ _, ?_⟩
  omega

/-- C3 witness: the expiry query evaluated at the spec's example times. -/
theorem claim_expiresIn_formula_witness :
    ((1000000100 : Int) ≤ 1000003600) ∧
    (Association.getExpiresIn ⟨"h1".toList, [0], 1000000000, 3600, "HMAC-SHA1".toList⟩
        1000000100 = max 0 (1000000000 + 3600 - 1000000100) ∧
      0 ≤ Association.getExpiresIn ⟨"h1".toList, [0], 1000000000, 3600,
            "HMAC-SHA1".toList⟩ 1000000100 ∧
      Association.getExpiresIn ⟨"h1".toList, [0], 1000000000, 3600, "HMAC-SHA1".toList⟩
          1000003600 ≤
        Association.getExpiresIn ⟨"h1".toList, [0], 1000000000, 3600, "HMAC-SHA1".toList⟩
          1000000100) :=
  ⟨by decide, claim_expiresIn_formula _ 1000000100 1000003600 (by decide)⟩

/-- C4: whenever strict decoding succeeds with a key sequence different
from the fixed ordered one, `deserialize` fails with `unexpectedKeys`;
in particular, the concrete blob obtained by swapping the `handle` and
`secret` lines of the serialization of a valid association (shown in the
last conjunct) is rejected. -/
theorem claim_deserialize_unexpected_keys :
    (∀ (s : List Char) (pairs : List (List Char × List Char)),
      kvToSeq s true = .ok pairs →
      pairs.map Prod.fst ≠ Association.assoc_keys →
      Association.deserialize s = .error (.unexpectedKeys (pairs.map Prod.fst))) ∧
    Association.serialize ⟨"h1".toList, [0, 0], 1000000000, 3600, "HMAC-SHA1".toList⟩ =
      .ok ("version:2\nhandle:h1\nsecret:AAA=\nissued:1000000000\nlifetime:3600\nassoc_type:HMAC-SHA1\n".toList) ∧
    Association.deserialize
      ("version:2\nsecret:AAA=\nhandle:h1\nissued:1000000000\nlifetime:3600\nassoc_type:HMAC-SHA1\n".toList) =
      .error (.unexpectedKeys ["version".toList, "secret".toList, "handle".toList,
        "issued".toList, "lifetime".toList, "assoc_type".toList]) := by
  refine ⟨?_, by decide, by decide⟩
  intro s pairs hkv hkeys
  unfold Association.deserialize
  rw [hkv, except_bind_ok, if_pos hkeys]

/-- C4 witness: the general part applied to a concrete one-pair input. -/
theorem claim_deserialize_unexpected_keys_witness :
    kvToSeq ("a:b\n".toList) true = .ok [("a".toList, "b".toList)] ∧
    [("a".toList, "b".toList)].map Prod.fst ≠ Association.assoc_keys ∧
    Association.deserialize ("a:b\n".toList) =
      .error (.unexpectedKeys ([("a".toList, "b".toList)].map Prod.fst)) :=
  ⟨by decide, by decide,
    claim_deserialize_unexpected_keys.1 _ _ (by decide) (by decide)⟩

/-- C5: when strict decoding yields exactly the six expected keys in
order but the version value differs from `"2"`, `deserialize` fails with
`unknownVersion`. -/
theorem claim_deserialize_unknown_version
    (s v h2 sec iss lif at2 : List Char)
    (hkv : kvToSeq s true = .ok [("version".toList, v), ("handle".toList, h2),
      ("secret".toList, sec), ("issued".toList, iss), ("lifetime".toList, lif),
      ("assoc_type".toList, at2)])
    (hv : v ≠ ['2']) :
    Association.deserialize s = .error (.unknownVersion v) := by
  unfold Association.deserialize
  rw [hkv, except_bind_ok]
  simp only [List.map_cons, List.map_nil]
  rw [if_neg (by decide), if_pos hv]

/-- C5 witness: a concrete blob carrying `version:3`. -/
theorem claim_deserialize_unknown_version_witness :
    kvToSeq ("version:3\nhandle:h1\nsecret:AAA=\nissued:5\nlifetime:6\nassoc_type:HMAC-SHA1\n".toList)
        true =
      .ok [("version".toList, ['3']), ("handle".toList, "h1".toList),
        ("secret".toList, "AAA=".toList), ("issued".toList, ['5']),
        ("lifetime".toList, ['6']), ("assoc_type".toList, "HMAC-SHA1".toList)] ∧
    ['3'] ≠ ['2'] ∧
    Association.deserialize
        ("version:3\nhandle:h1\nsecret:AAA=\nissued:5\nlifetime:6\nassoc_type:HMAC-SHA1\n".toList) =
      .error (.unknownVersion ['3']) :=
  ⟨by decide, by decide,
    claim_deserialize_unknown_version
      ("version:3\nhandle:h1\nsecret:AAA=\nissued:5\nlifetime:6\nassoc_type:HMAC-SHA1\n".toList)
      ['3'] "h1".toList "AAA=".toList ['5'] ['6'] "HMAC-SHA1".toList
      (by decide) (by decide)⟩

/-- C6: `serialize` builds exactly the six `(key, value)` pairs in the
fixed order with the documented value encodings, the keys in `assoc_keys`
order, encodes them strictly, and its internal length invariant holds for
every association, so the assertion-failure branch is unreachable. -/
theorem claim_serialize_structure (a : Association) :
    a.assocData = [("version".toList, ['2']), ("handle".toList, a.handle),
      ("secret".toList, toBase64 a.secret), ("issued".toList, intToStr a.issued),
      ("lifetime".toList, intToStr a.lifetime), ("assoc_type".toList, a.assoc_type)] ∧
    a.assocData.map Prod.fst = Association.assoc_keys ∧
    a.assocData.length = Association.assoc_keys.length ∧
    Association.serialize a = seqToKV a.assocData true ∧
    Association.serialize a ≠ .error .assertionFailure := by
  refine ⟨rfl, rfl, rfl, rfl, ?_⟩
  rw [serialize_eq]
  unfold seqToKV
  split <;> simp

set_option maxRecDepth 100000 in
/-- C7: `sign` is deterministic — it is a pure function of the secret and
the ordered pairs, so any two associations sharing a secret produce the
same MAC on the same pairs — and order-sensitive: a concrete two-pair
input whose reordering yields a different MAC. -/
theorem claim_sign_deterministic_order_sensitive :
    (∀ (a b : Association) (pairs : List (List Char × List Char)),
      a.secret = b.secret → Association.sign a pairs = Association.sign b pairs) ∧
    (∃ (a : Association) (p q : List Char × List Char),
      Association.sign a [p, q] ≠ Association.sign a [q, p]) := by
  constructor
  · intro a b pairs hsec
    unfold Association.sign
    rw [hsec]
  · exact ⟨⟨"h1".toList, [0, 255, 7], 0, 0, "HMAC-SHA1".toList⟩,
      ("a".toList, "x".toList), ("b".toList, "y".toList), by decide⟩

/-- C7 witness: the determinism part applied to two concrete associations
sharing a secret but differing in every other field. -/
theorem claim_sign_deterministic_order_sensitive_witness :
    (Association.secret ⟨"h1".toList, [1, 2], 5, 6, "HMAC-SHA1".toList⟩ =
      Association.secret ⟨"h2".toList, [1, 2], 7, 8, "HMAC-SHA1".toList⟩) ∧
    Association.sign ⟨"h1".toList, [1, 2], 5, 6, "HMAC-SHA1".toList⟩
        [("mode".toList, "id_res".toList)] =
      Association.sign ⟨"h2".toList, [1, 2], 7, 8, "HMAC-SHA1".toList⟩
        [("mode".toList, "id_res".toList)] :=
  ⟨rfl, claim_sign_deterministic_order_sensitive.1 _ _ _ rfl⟩

/-- C8 (code bug): with every requested field present in the map,
`signDict` does not return the base64-encoded MAC its docstring promises:
the final source line `return oidUtil.toBase64(self.sign(pairs))` names
the undefined identifier `oidUtil` — the module is imported as `oidutil`
— so the call raises `NameError` instead. -/
theorem claim_signDict_typo_nameError :
    Association.signDict ⟨"h1".toList, [0], 0, 0, "HMAC-SHA1".toList⟩
        ["mode".toList] [("openid.mode".toList, "id_res".toList)] "openid.".toList =
      .error (.nameError "oidUtil".toList) := by
  decide

/-- C9: when some requested field name, after prefixing, is absent from
the supplied map, `signDict` fails with `missingField` — an error, so no
partial signature over the present fields is returned. -/
theorem claim_signDict_missing_field (a : Association) (fields : List (List Char))
    (data : List (List Char × List Char)) (pfx : List Char)
    (h : ∃ f ∈ fields, data.lookup (pfx ++ f) = none) :
    ∃ g ∈ fields, data.lookup (pfx ++ g) = none ∧
      Association.signDict a fields data pfx = .error (.missingField g) := by
  obtain ⟨g, hg, hgl, heq⟩ := mapM_lookup_missing data pfx fields h
  refine ⟨g, hg, hgl, ?_⟩
  rw [signDict_eq, heq, except_bind_error]

/-- C9 witness: a concrete request for a field absent from the map. -/
theorem claim_signDict_missing_field_witness :
    (∃ f ∈ [("mode".toList : List Char), "sig".toList],
      [("openid.mode".toList, "id_res".toList)].lookup ("openid.".toList ++ f) = none) ∧
    ∃ g ∈ [("mode".toList : List Char), "sig".toList],
      [("openid.mode".toList, "id_res".toList)].lookup ("openid.".toList ++ g) = none ∧
      Association.signDict ⟨"h1".toList, [0], 0, 0, "HMAC-SHA1".toList⟩
          ["mode".toList, "sig".toList] [("openid.mode".toList, "id_res".toList)]
          "openid.".toList =
        .error (.missingField g) :=
  ⟨by decide, claim_signDict_missing_field _ _ _ _ (by decide)⟩

/-- C10: `fromExpiresIn` performs no validation of the time fields: for
every integer `expires_in`, zero and negative included, it succeeds
(given the supported association type) with `issued` stamped as the
current time and `lifetime = expires_in`, and for non-positive
`expires_in` the expiry query already returns 0 at construction time. -/
theorem claim_fromExpiresIn_no_validation (now expires_in : Int)
    (handle : List Char) (secret : List Nat) :
    Association.fromExpiresIn now expires_in handle secret "HMAC-SHA1".toList =
      .ok ⟨handle, secret, now, expires_in, "HMAC-SHA1".toList⟩ ∧
    (expires_in ≤ 0 →
      Association.getExpiresIn ⟨handle, secret, now, expires_in, "HMAC-SHA1".toList⟩
        now = 0) := by
  constructor
  · unfold Association.fromExpiresIn Association.init
    rw [if_neg (by simp)]
  · intro hle
    unfold Association.getExpiresIn
    simp only []
    omega

/-- C10 witness: a negative `expires_in` at a concrete construction
time. -/
theorem claim_fromExpiresIn_no_validation_witness :
    ((-5 : Int) ≤ 0) ∧
    Association.getExpiresIn ⟨"h1".toList, [0], 1000, -5, "HMAC-SHA1".toList⟩ 1000 = 0 :=
  ⟨by decide,
    (claim_fromExpiresIn_no_validation 1000 (-5) "h1".toList [0]).2 (by decide)⟩
